import Mathlib

/-!
Shallow embedding of the `roll-rs` dice-notation evaluator
(`src/roll.rs`, `src/main.rs`).

Conventions of the embedding:
- Rust `u32` / `usize` values are modelled as `Nat`, with the overflow
  checks of `str::parse` made explicit where parsing can fail;
  `i32` is modelled as `Int` with its parse bounds explicit.
- The random generator (`impl Rng`) is modelled as an infinite stream of
  raw draws together with a cursor; `rand`'s `gen_range(lo, hi)` panics
  when `lo >= hi`, so the modelled draw returns `Option`.
- Code that can panic (slicing in `Outcome::total`, `gen_range` on an
  empty range) returns `Option`, `none` standing for the panic.
- `f64` arithmetic in the expected-value calculator is modelled by exact
  rationals `ℚ`; all claim instances stay within exactly representable
  values up to the final division.
-/

namespace RollRs

/-- `Keep` from `src/roll.rs`: keep the highest `n` or the lowest `n` dice. -/
inductive Keep where
  | High : Nat → Keep
  | Low : Nat → Keep
  deriving DecidableEq

/-- `DieRoll` from `src/roll.rs`: a die either kept as rolled, or rerolled
(original, final). -/
inductive DieRoll where
  | Kept : Nat → DieRoll
  | Rerolled : Nat → Nat → DieRoll
  deriving DecidableEq

/-- `DieRoll::value`: the effective value of a die (the final value for a
rerolled die). -/
def DieRoll.value : DieRoll → Nat
  | .Kept n => n
  | .Rerolled _ n => n

/-- `Outcome` from `src/roll.rs`. -/
structure Outcome where
  rolls : List DieRoll
  modifier : Int
  keep : Option Keep
  deriving DecidableEq

/-- The comparison used by `Outcome::new`'s `sort_by`: order die rolls by
effective value. -/
def valueLE (a b : DieRoll) : Prop := a.value ≤ b.value

instance : DecidableRel valueLE := fun a b =>
  inferInstanceAs (Decidable (a.value ≤ b.value))

instance : IsTotal DieRoll valueLE := ⟨fun a b => Nat.le_total a.value b.value⟩

instance : IsTrans DieRoll valueLE := ⟨fun _ _ _ => Nat.le_trans⟩

/-- `Outcome::new`: sort the rolls ascending by effective value and store
the keep selector and modifier. -/
def Outcome.new (rolls : List DieRoll) (keep : Option Keep) (modifier : Int) :
    Outcome :=
  { rolls := List.insertionSort valueLE rolls, modifier := modifier, keep := keep }

/-- Sum of the effective values of a list of die rolls
(`range.into_iter().map(|roll| roll.value()).sum::<u32>()`). -/
def rollsSum (l : List DieRoll) : Nat := (l.map DieRoll.value).sum

/-- `Outcome::total`: slice the sorted rolls according to `keep`, sum the
effective values and add the modifier.  The slice
`&self.rolls[self.rolls.len() - n..]` (resp. `&self.rolls[..n]`) panics when
`n` exceeds the pool size; the panic is modelled as `none`. -/
def Outcome.total (o : Outcome) : Option Int :=
  match o.keep with
  | some (Keep.High n) =>
      if n ≤ o.rolls.length then
        some ((rollsSum (o.rolls.drop (o.rolls.length - n)) : Int) + o.modifier)
      else none
  | some (Keep.Low n) =>
      if n ≤ o.rolls.length then
        some ((rollsSum (o.rolls.take n) : Int) + o.modifier)
      else none
  | none => some ((rollsSum o.rolls : Int) + o.modifier)

/-- `Roll` from `src/roll.rs`. -/
structure Roll where
  num : Nat
  die : Nat
  reroll : Option Nat
  modifier : Option Int
  keep : Option Keep
  deriving DecidableEq

/-- `Roll::new`. -/
def Roll.new (num die : Nat) (reroll : Option Nat) (keep : Option Keep)
    (modifier : Option Int) : Roll :=
  { num := num, die := die, reroll := reroll, modifier := modifier, keep := keep }

/-- `Default for Roll`: one die, die size 0, no reroll, modifier or keep. -/
def Roll.default : Roll :=
  { num := 1, die := 0, reroll := none, modifier := none, keep := none }

/-- The random source: an infinite stream of raw draws and a cursor. -/
structure RngState where
  stream : Nat → Nat
  idx : Nat

/-- Take the next raw draw from the source. -/
def RngState.next (s : RngState) : Nat × RngState :=
  (s.stream s.idx, { s with idx := s.idx + 1 })

/-- `rand`'s `gen_range(lo, hi)`: a value in `[lo, hi)`, determined here by
the next raw draw; panics (`none`) when the range is empty. -/
def genRange (lo hi raw : Nat) : Option Nat :=
  if lo < hi then some (lo + raw % (hi - lo)) else none

/-- `Roll::base_roll`: `rng.gen_range(0, self.die) + 1`. -/
def Roll.base_roll (r : Roll) (s : RngState) : Option (Nat × RngState) :=
  let p := s.next
  (genRange 0 r.die p.1).map (fun v => (v + 1, p.2))

/-- The loop body of `Roll::roll` iterated `n` times: draw a base value per
die; when a reroll threshold is set and the base value is at most the
threshold, draw one replacement and record `Rerolled`, otherwise record
`Kept`. -/
def Roll.rollDice (r : Roll) : Nat → RngState → Option (List DieRoll × RngState)
  | 0, s => some ([], s)
  | Nat.succ n, s =>
    match r.base_roll s with
    | none => none
    | some (orig, s1) =>
      let step : Option (DieRoll × RngState) :=
        match r.reroll with
        | some t =>
          if orig ≤ t then
            (r.base_roll s1).map (fun p => (DieRoll.Rerolled orig p.1, p.2))
          else some (DieRoll.Kept orig, s1)
        | none => some (DieRoll.Kept orig, s1)
      match step with
      | none => none
      | some (d, s2) =>
        match r.rollDice n s2 with
        | none => none
        | some (rest, s3) => some (d :: rest, s3)

/-- `Roll::roll`: roll `num` dice and build the `Outcome` with the roll's
keep selector and modifier (`self.modifier.unwrap_or(0)`). -/
def Roll.roll (r : Roll) (s : RngState) : Option Outcome :=
  (r.rollDice r.num s).map (fun p => Outcome.new p.1 r.keep (r.modifier.getD 0))

/-- `expected_roll` from `src/roll.rs` (`f64` modelled as `ℚ`): with the
reroll threshold defaulted to `die + 1`, average over the faces `1..=die`,
a face at most the threshold contributing the unconditional mean
`die / 2 + 0.5` and any other face contributing itself. -/
def expected_roll (die : Nat) (reroll : Option Nat) : ℚ :=
  let rr := reroll.getD (die + 1)
  let avg : ℚ := (die : ℚ) / 2 + 1 / 2
  let total : ℚ := ∑ n in Finset.Icc 1 die, (if n ≤ rr then avg else (n : ℚ))
  total / (die : ℚ)

/-- `Roll::expected_total`: per-die expected value times the keep count
(or `num` when no keep selector is set) plus the modifier. -/
def Roll.expected_total (r : Roll) : ℚ :=
  let num_dice : ℚ :=
    match r.keep with
    | some (Keep.High n) => (n : ℚ)
    | some (Keep.Low n) => (n : ℚ)
    | none => (r.num : ℚ)
  expected_roll r.die r.reroll * num_dice + ((r.modifier.getD 0 : Int) : ℚ)

/-! ### The parser

`Roll::from_str` matches the token against the unanchored pattern

  `(?P<num>[0-9]*)d(?P<die>[0-9]+)(r(?P<reroll>[0-9]+))?((?P<high_or_low>[hl])(?P<keep>[0-9]+))?(?P<modifier>[\+\-][0-9]+)?`

(`REGEX_STR` in `src/roll.rs`) and then converts the captured groups.  The
pattern is embedded as a scanner with the regex crate's semantics for this
pattern: the match starts at the leftmost position where the whole pattern
can match; at that position, each `[0-9]*`/`[0-9]+` is greedy (each digit
run is followed by a non-digit requirement, so greediness never needs to
backtrack), and each optional group matches when its literal head and
digits are present. -/

/-- The captured groups of one regex match.  `die` is an `Option` exactly as
`cap.name("die")` is in the source, although the pattern cannot succeed
without it.  The `modifier` capture includes its sign character. -/
structure Captures where
  num : List Char
  die : Option (List Char)
  reroll : Option (List Char)
  high_or_low : Option Char
  keep : Option (List Char)
  modifier : Option (List Char)
  deriving DecidableEq

/-- Split off the leading run of `[0-9]` characters (greedy digit matching). -/
def spanDigits : List Char → List Char × List Char
  | [] => ([], [])
  | c :: cs =>
    if c.isDigit then
      let p := spanDigits cs
      (c :: p.1, p.2)
    else ([], c :: cs)

/-- The optional group `(r(?P<reroll>[0-9]+))?`: matches when an `r` followed
by at least one digit is present, else matches empty. -/
def stepReroll (l : List Char) : Option (List Char) × List Char :=
  match l with
  | 'r' :: rest =>
    let p := spanDigits rest
    if p.1.isEmpty then (none, l) else (some p.1, p.2)
  | _ => (none, l)

/-- The optional group `((?P<high_or_low>[hl])(?P<keep>[0-9]+))?`. -/
def stepKeep (l : List Char) : Option Char × Option (List Char) × List Char :=
  match l with
  | c :: rest =>
    if c = 'h' || c = 'l' then
      let p := spanDigits rest
      if p.1.isEmpty then (none, none, l) else (some c, some p.1, p.2)
    else (none, none, l)
  | [] => (none, none, l)

/-- The optional group `(?P<modifier>[\+\-][0-9]+)?`; the capture keeps the
sign character. -/
def stepModifier (l : List Char) : Option (List Char) :=
  match l with
  | c :: rest =>
    if c = '+' || c = '-' then
      let p := spanDigits rest
      if p.1.isEmpty then none else some (c :: p.1)
    else none
  | [] => none

/-- Match the whole pattern starting exactly at the head of `s`; `none` when
no match starts there (the mandatory `d` followed by a digit is missing). -/
def matchAt (s : List Char) : Option Captures :=
  let p1 := spanDigits s
  match p1.2 with
  | 'd' :: r2 =>
    let p2 := spanDigits r2
    if p2.1.isEmpty then none
    else
      let pr := stepReroll p2.2
      let pk := stepKeep pr.2
      let pm := stepModifier pk.2.2
      some { num := p1.1, die := some p2.1, reroll := pr.1,
             high_or_low := pk.1, keep := pk.2.1, modifier := pm }
  | _ => none

/-- `REGEX.captures(input)`: the leftmost match of the pattern in the input,
if any. -/
def findMatch : List Char → Option Captures
  | [] => none
  | c :: cs =>
    match matchAt (c :: cs) with
    | some cap => some cap
    | none => findMatch cs

/-- Decimal digit value of a digit character. -/
def digitVal (c : Char) : Nat := c.toNat - 48

/-- Numeric value of a digit string (most significant first). -/
def digitsToNat (ds : List Char) : Nat :=
  ds.foldl (fun a c => a * 10 + digitVal c) 0

/-- Rust's `str::parse::<u32>` on a captured digit string: fails on an empty
string or on overflow past `u32::MAX`. -/
def parse_u32 (ds : List Char) : Option Nat :=
  if ds.isEmpty then none
  else if digitsToNat ds < 2 ^ 32 then some (digitsToNat ds) else none

/-- Rust's `str::parse::<usize>` (64-bit) on a captured digit string. -/
def parse_usize (ds : List Char) : Option Nat :=
  if ds.isEmpty then none
  else if digitsToNat ds < 2 ^ 64 then some (digitsToNat ds) else none

/-- Rust's `str::parse::<i32>` on a captured sign-and-digits string. -/
def parse_i32 (ds : List Char) : Option Int :=
  match ds with
  | '+' :: rest =>
    if rest.isEmpty then none
    else if digitsToNat rest ≤ 2 ^ 31 - 1 then some (digitsToNat rest : Int)
    else none
  | '-' :: rest =>
    if rest.isEmpty then none
    else if digitsToNat rest ≤ 2 ^ 31 then some (-(digitsToNat rest : Int))
    else none
  | _ =>
    if ds.isEmpty then none
    else if digitsToNat ds ≤ 2 ^ 31 - 1 then some (digitsToNat ds : Int)
    else none

/-- `Roll::from_str` (`impl FromStr for Roll` in `src/roll.rs`): match the
pattern anywhere in the input, then convert the captures in source order
(num, die, reroll, modifier, high-or-low/keep), each failed numeric
conversion yielding its specific error, an absent match yielding the
generic error. -/
def Roll.from_str (input : String) : Except String Roll :=
  match findMatch input.data with
  | none => .error "Something went wrong."
  | some cap =>
    let numRes : Except String Nat :=
      if cap.num.isEmpty then .ok Roll.default.num
      else
        match parse_u32 cap.num with
        | some n => .ok n
        | none => .error "Failed to parse number of dice."
    match numRes with
    | .error e => .error e
    | .ok num =>
      match cap.die with
      | none => .error "No die specified."
      | some dieStr =>
        match parse_u32 dieStr with
        | none => .error "Failed to parse die size."
        | some die =>
          let rerollRes : Except String (Option Nat) :=
            match cap.reroll with
            | none => .ok none
            | some ds =>
              match parse_u32 ds with
              | some n => .ok (some n)
              | none => .error "Failed to parse reroll."
          match rerollRes with
          | .error e => .error e
          | .ok reroll =>
            let modRes : Except String (Option Int) :=
              match cap.modifier with
              | none => .ok none
              | some ds =>
                match parse_i32 ds with
                | some m => .ok (some m)
                | none => .error "Failed to parse modifier."
            match modRes with
            | .error e => .error e
            | .ok modifier =>
              let keepRes : Except String (Option Keep) :=
                match cap.high_or_low with
                | none => .ok none
                | some c =>
                  if c = 'h' ∨ c = 'l' then
                    match cap.keep with
                    | none => .ok none
                    | some ds =>
                      match parse_usize ds with
                      | some k =>
                        .ok (some (if c = 'h' then Keep.High k else Keep.Low k))
                      | none => .error "Error parsing number or dice to keep."
                  else .error "Error parsing high or low."
              match keepRes with
              | .error e => .error e
              | .ok keep =>
                .ok { num := num, die := die, reroll := reroll,
                      modifier := modifier, keep := keep }

/-! ### The formatter (`impl fmt::Display for Roll`) -/

/-- Decimal digit character of a value below 10. -/
def digitChar (n : Nat) : Char := Char.ofNat (48 + n)

/-- Fuel-driven digit accumulation: peel the least significant digit onto
the accumulator until the value is a single digit. -/
def natToCharsAux : Nat → Nat → List Char → List Char
  | 0, _, acc => acc
  | fuel + 1, n, acc =>
    if n < 10 then digitChar n :: acc
    else natToCharsAux fuel (n / 10) (digitChar (n % 10) :: acc)

/-- Decimal representation of a natural number, most significant digit
first (the rendering of `write!(f, "{}", n)`). -/
def natToChars (n : Nat) : List Char := natToCharsAux (n + 1) n []

/-- The `if self.num > 1` piece of `Display`: the dice count when above 1. -/
def numPart (num : Nat) : List Char :=
  if 1 < num then natToChars num else []

/-- The optional `r<threshold>` piece of `Display`. -/
def rerollPart : Option Nat → List Char
  | some n => 'r' :: natToChars n
  | none => []

/-- The optional `h<n>` / `l<n>` piece of `Display`. -/
def keepPart : Option Keep → List Char
  | some (Keep.High n) => 'h' :: natToChars n
  | some (Keep.Low n) => 'l' :: natToChars n
  | none => []

/-- The optional signed-modifier piece of `Display` (`{:+}` on a nonzero
modifier). -/
def modPart : Option Int → List Char
  | some m =>
    if m = 0 then []
    else if 0 < m then '+' :: natToChars m.toNat
    else '-' :: natToChars (-m).toNat
  | none => []

/-- `impl fmt::Display for Roll`: the dice notation of a roll — the count
when above one, `d` and the die size, then the optional reroll, keep and
(nonzero) modifier pieces. -/
def Roll.fmt (r : Roll) : List Char :=
  numPart r.num ++ 'd' :: natToChars r.die
    ++ rerollPart r.reroll ++ keepPart r.keep ++ modPart r.modifier

/-- `Roll`'s rendered notation as a string. -/
def Roll.toNotation (r : Roll) : String := ⟨r.fmt⟩

/-! ### The macro table and resolution (`src/main.rs`) -/

/-- The built-in `MACROS` table of `src/main.rs`: `adv` is one `2d20`
keep-high-1, `dis` is one `2d20` keep-low-1, `stats` is six `4d6`
keep-high-3. -/
def MACROS : List (String × List Roll) :=
  [("adv", [Roll.new 2 20 none (some (Keep.High 1)) none]),
   ("dis", [Roll.new 2 20 none (some (Keep.Low 1)) none]),
   ("stats",
    [Roll.new 4 6 none (some (Keep.High 3)) none,
     Roll.new 4 6 none (some (Keep.High 3)) none,
     Roll.new 4 6 none (some (Keep.High 3)) none,
     Roll.new 4 6 none (some (Keep.High 3)) none,
     Roll.new 4 6 none (some (Keep.High 3)) none,
     Roll.new 4 6 none (some (Keep.High 3)) none])]

/-- `self.macros.get(&arg)`: exact-name lookup in the macro table. -/
def getRolls (table : List (String × List Roll)) (name : String) :
    Option (List Roll) :=
  (table.find? (fun p => p.1 = name)).map Prod.snd

/-- The loop of `Context::parse_rolls` with its accumulator: for each token
in order, append copies of the macro's rolls on an exact table hit, else
parse the token, failing fast on the first parse error. -/
def parseRollsLoop (table : List (String × List Roll)) (acc : List Roll) :
    List String → Except String (List Roll)
  | [] => .ok acc
  | arg :: rest =>
    match getRolls table arg with
    | some sub => parseRollsLoop table (acc ++ sub) rest
    | none =>
      match Roll.from_str arg with
      | .ok r => parseRollsLoop table (acc ++ [r]) rest
      | .error e => .error e

/-- `Context::parse_rolls`. -/
def parse_rolls (table : List (String × List Roll)) (args : List String) :
    Except String (List Roll) :=
  parseRollsLoop table [] args

/-! ### Auxiliary definitions used by the statements -/

/-- Whether a die-roll result was rerolled. -/
def DieRoll.isRerolled : DieRoll → Bool
  | .Rerolled _ _ => true
  | .Kept _ => false

/-- The per-die expected value as the specification words it: the average
over the faces `1` to `die` of the unconditional mean `(die + 1) / 2` for a
face at most the reroll threshold and of the face itself otherwise, an
absent threshold meaning no face qualifies for a reroll. -/
def claimExpectedPerDie (die : Nat) (reroll : Option Nat) : ℚ :=
  (∑ v in Finset.Icc 1 die,
    if v ≤ reroll.getD 0 then ((die : ℚ) + 1) / 2 else (v : ℚ)) / (die : ℚ)

/-- The total expected value as the specification words it: the per-die
value times the keep count (or the dice count without a keep selector),
plus the modifier. -/
def claimExpectedTotal (r : Roll) : ℚ :=
  claimExpectedPerDie r.die r.reroll *
    (match r.keep with
     | some (Keep.High n) => (n : ℚ)
     | some (Keep.Low n) => (n : ℚ)
     | none => (r.num : ℚ))
  + ((r.modifier.getD 0 : Int) : ℚ)

/-- A concrete random source reading its raw draws off a list. -/
def streamOf (l : List Nat) : RngState :=
  { stream := fun n => l.getD n 0, idx := 0 }

/-- The `high_or_low` capture produced by matching a formatted roll. -/
def holOf : Option Keep → Option Char
  | some (Keep.High _) => some 'h'
  | some (Keep.Low _) => some 'l'
  | none => none

/-- The `keep` capture produced by matching a formatted roll. -/
def keepCapOf : Option Keep → Option (List Char)
  | some (Keep.High n) => some (natToChars n)
  | some (Keep.Low n) => some (natToChars n)
  | none => none

/-- The `modifier` capture produced by matching a formatted roll. -/
def modCapOf : Option Int → Option (List Char)
  | some m =>
    if m = 0 then none
    else if 0 < m then some ('+' :: natToChars m.toNat)
    else some ('-' :: natToChars (-m).toNat)
  | none => none

/-- The captures produced by matching the formatted notation of a roll. -/
def capFmt (r : Roll) : Captures :=
  { num := numPart r.num
  , die := some (natToChars r.die)
  , reroll := r.reroll.map natToChars
  , high_or_low := holOf r.keep
  , keep := keepCapOf r.keep
  , modifier := modCapOf r.modifier }

instance {ε α : Type} [DecidableEq ε] [DecidableEq α] :
    DecidableEq (Except ε α) := fun a b =>
  match a, b with
  | .ok x, .ok y =>
    if h : x = y then .isTrue (congrArg Except.ok h)
    else .isFalse (fun hc => h (Except.ok.inj hc))
  | .error x, .error y =>
    if h : x = y then .isTrue (congrArg Except.error h)
    else .isFalse (fun hc => h (Except.error.inj hc))
  | .ok _, .error _ => .isFalse (fun hc => Except.noConfusion hc)
  | .error _, .ok _ => .isFalse (fun hc => Except.noConfusion hc)

/-! ### Supporting lemmas -/

theorem insertionSort_map_value (rolls sorted : List DieRoll)
    (hperm : sorted.Perm rolls) (hsort : sorted.Sorted valueLE) :
    (List.insertionSort valueLE rolls).map DieRoll.value
      = sorted.map DieRoll.value := by
  have hp : ((List.insertionSort valueLE rolls).map DieRoll.value).Perm
      (sorted.map DieRoll.value) :=
    ((List.perm_insertionSort valueLE rolls).trans hperm.symm).map DieRoll.value
  have hs1 : ((List.insertionSort valueLE rolls).map DieRoll.value).Sorted (· ≤ ·) :=
    List.Pairwise.map DieRoll.value (fun _ _ h => h)
      (List.sorted_insertionSort valueLE rolls)
  have hs2 : (sorted.map DieRoll.value).Sorted (· ≤ ·) :=
    List.Pairwise.map DieRoll.value (fun _ _ h => h) hsort
  exact List.eq_of_perm_of_sorted hp hs1 hs2

theorem genRange_some {lo hi raw v : Nat} (h : genRange lo hi raw = some v) :
    lo ≤ v ∧ v < hi := by
  unfold genRange at h
  split at h
  · cases h
    refine ⟨Nat.le_add_right lo _, ?_⟩
    have := Nat.mod_lt raw (show 0 < hi - lo by omega)
    omega
  · cases h

theorem base_roll_some {r : Roll} {s s1 : RngState} {v : Nat}
    (h : r.base_roll s = some (v, s1)) :
    1 ≤ v ∧ v ≤ r.die ∧ s1.stream = s.stream ∧ s1.idx = s.idx + 1 := by
  simp only [Roll.base_roll, RngState.next] at h
  cases hg : genRange 0 r.die (s.stream s.idx) with
  | none => rw [hg] at h; cases h
  | some w =>
    rw [hg] at h
    have hb := genRange_some hg
    simp only [Option.map_some'] at h
    cases h
    exact ⟨by omega, by omega, rfl, rfl⟩

theorem base_roll_of_die_pos (r : Roll) (s : RngState) (hdie : 1 ≤ r.die) :
    r.base_roll s
      = some (s.stream s.idx % r.die + 1, { s with idx := s.idx + 1 }) := by
  have h0 : 0 < r.die := hdie
  simp [Roll.base_roll, RngState.next, genRange, h0]

theorem rollDice_zero (r : Roll) (s : RngState) : r.rollDice 0 s = some ([], s) :=
  rfl

theorem rollDice_succ_base_none (r : Roll) (n : Nat) (s : RngState)
    (hb : r.base_roll s = none) : r.rollDice (n + 1) s = none := by
  simp only [Roll.rollDice, hb]

theorem rollDice_succ_noreroll (r : Roll) (n : Nat) (s s1 : RngState) (orig : Nat)
    (hr : r.reroll = none) (hb : r.base_roll s = some (orig, s1)) :
    r.rollDice (n + 1) s =
      match r.rollDice n s1 with
      | none => none
      | some (rest, s3) => some (DieRoll.Kept orig :: rest, s3) := by
  simp only [Roll.rollDice, hb, hr]

theorem rollDice_succ_reroll_miss (r : Roll) (n : Nat) (s s1 : RngState)
    (orig t : Nat) (hr : r.reroll = some t) (hle : ¬ orig ≤ t)
    (hb : r.base_roll s = some (orig, s1)) :
    r.rollDice (n + 1) s =
      match r.rollDice n s1 with
      | none => none
      | some (rest, s3) => some (DieRoll.Kept orig :: rest, s3) := by
  simp only [Roll.rollDice, hb, hr, if_neg hle]

theorem rollDice_succ_reroll_hit (r : Roll) (n : Nat) (s s1 s2 : RngState)
    (orig v2 t : Nat) (hr : r.reroll = some t) (hle : orig ≤ t)
    (hb : r.base_roll s = some (orig, s1)) (hb2 : r.base_roll s1 = some (v2, s2)) :
    r.rollDice (n + 1) s =
      match r.rollDice n s2 with
      | none => none
      | some (rest, s3) => some (DieRoll.Rerolled orig v2 :: rest, s3) := by
  simp only [Roll.rollDice, hb, hr, if_pos hle, hb2, Option.map_some']

theorem rollDice_succ_reroll_hit_none (r : Roll) (n : Nat) (s s1 : RngState)
    (orig t : Nat) (hr : r.reroll = some t) (hle : orig ≤ t)
    (hb : r.base_roll s = some (orig, s1)) (hb2 : r.base_roll s1 = none) :
    r.rollDice (n + 1) s = none := by
  simp only [Roll.rollDice, hb, hr, if_pos hle, hb2, Option.map_none']

theorem rollDice_bound (r : Roll) :
    ∀ (n : Nat) (s : RngState) (l : List DieRoll) (s2 : RngState),
      r.rollDice n s = some (l, s2) → ∀ d ∈ l,
        match d with
        | DieRoll.Kept v => 1 ≤ v ∧ v ≤ r.die
        | DieRoll.Rerolled ov fv =>
            (1 ≤ ov ∧ ov ≤ r.die) ∧ (1 ≤ fv ∧ fv ≤ r.die) := by
  intro n
  induction n with
  | zero =>
    intro s l s2 h d hd
    rw [rollDice_zero] at h
    cases h
    cases hd
  | succ n ih =>
    intro s l s2 h d hd
    cases hb : r.base_roll s with
    | none => rw [rollDice_succ_base_none r n s hb] at h; cases h
    | some p =>
      obtain ⟨orig, s1⟩ := p
      have horig := base_roll_some hb
      have tailStep : ∀ (d0 : DieRoll) (s1' : RngState),
          (match r.rollDice n s1' with
            | none => none
            | some (rest, s3) => some (d0 :: rest, s3)) = some (l, s2) →
          d = d0 ∨ ∃ rest s3, r.rollDice n s1' = some (rest, s3) ∧ d ∈ rest := by
        intro d0 s1' h
        cases hrest : r.rollDice n s1' with
        | none => rw [hrest] at h; cases h
        | some q =>
          obtain ⟨rest, s3⟩ := q
          rw [hrest] at h
          have h2 : some ((d0 :: rest, s3) : List DieRoll × RngState)
              = some (l, s2) := h
          injection h2 with h3
          injection h3 with h4 h5
          subst h4
          rcases List.mem_cons.mp hd with hd | hd
          · exact Or.inl hd
          · exact Or.inr ⟨rest, s3, rfl, hd⟩
      cases hr : r.reroll with
      | none =>
        rw [rollDice_succ_noreroll r n s s1 orig hr hb] at h
        rcases tailStep _ _ h with hdd | ⟨rest, s3, hrest, hdm⟩
        · subst hdd; exact ⟨horig.1, horig.2.1⟩
        · exact ih s1 rest s3 hrest d hdm
      | some t =>
        by_cases hle : orig ≤ t
        · cases hb2 : r.base_roll s1 with
          | none =>
            rw [rollDice_succ_reroll_hit_none r n s s1 orig t hr hle hb hb2] at h
            cases h
          | some p2 =>
            obtain ⟨v2, s2'⟩ := p2
            have hv2 := base_roll_some hb2
            rw [rollDice_succ_reroll_hit r n s s1 s2' orig v2 t hr hle hb hb2] at h
            rcases tailStep _ _ h with hdd | ⟨rest, s3, hrest, hdm⟩
            · subst hdd; exact ⟨⟨horig.1, horig.2.1⟩, hv2.1, hv2.2.1⟩
            · exact ih s2' rest s3 hrest d hdm
        · rw [rollDice_succ_reroll_miss r n s s1 orig t hr hle hb] at h
          rcases tailStep _ _ h with hdd | ⟨rest, s3, hrest, hdm⟩
          · subst hdd; exact ⟨horig.1, horig.2.1⟩
          · exact ih s1 rest s3 hrest d hdm

theorem isSome_tail (r : Roll) (n : Nat) (d0 : DieRoll) (s' : RngState)
    (ih : (r.rollDice n s').isSome = true) :
    (match r.rollDice n s' with
      | none => none
      | some (rest, s3) => some (d0 :: rest, s3)).isSome = true := by
  cases hrest : r.rollDice n s' with
  | none => rw [hrest] at ih; cases ih
  | some q => obtain ⟨l, s3⟩ := q; rfl

theorem rollDice_isSome_of_die_pos (r : Roll) (hdie : 1 ≤ r.die) :
    ∀ (n : Nat) (s : RngState), (r.rollDice n s).isSome = true := by
  intro n
  induction n with
  | zero => intro s; rfl
  | succ n ih =>
    intro s
    have hb := base_roll_of_die_pos r s hdie
    cases hr : r.reroll with
    | none =>
      rw [rollDice_succ_noreroll r n s _ _ hr hb]
      exact isSome_tail r n _ _ (ih _)
    | some t =>
      by_cases hle : s.stream s.idx % r.die + 1 ≤ t
      · have hb2 := base_roll_of_die_pos r { s with idx := s.idx + 1 } hdie
        rw [rollDice_succ_reroll_hit r n s _ _ _ _ t hr hle hb hb2]
        exact isSome_tail r n _ _ (ih _)
      · rw [rollDice_succ_reroll_miss r n s _ _ t hr hle hb]
        exact isSome_tail r n _ _ (ih _)

theorem base_roll_mk (r : Roll) (f : Nat → Nat) (i : Nat) (hdie : 1 ≤ r.die) :
    r.base_roll { stream := f, idx := i }
      = some (f i % r.die + 1, { stream := f, idx := i + 1 }) := by
  have h0 : 0 < r.die := hdie
  simp [Roll.base_roll, RngState.next, genRange, h0]

theorem rollDice_reroll_spec (r : Roll) (t : Nat) (ht : r.reroll = some t)
    (hdie : 1 ≤ r.die) :
    ∀ (n : Nat) (f : Nat → Nat) (i : Nat), ∃ (l : List DieRoll) (j : Nat),
      r.rollDice n { stream := f, idx := i } = some (l, { stream := f, idx := j }) ∧
      l.length = n ∧
      (∀ d ∈ l, (∃ b, d = DieRoll.Kept b ∧ t < b) ∨
                (∃ ov fv, d = DieRoll.Rerolled ov fv ∧ ov ≤ t)) ∧
      j = i + n + l.countP DieRoll.isRerolled := by
  intro n
  induction n with
  | zero =>
    intro f i
    refine ⟨[], i, rfl, rfl, ?_, by simp⟩
    intro d hd
    cases hd
  | succ n ih =>
    intro f i
    have hb := base_roll_mk r f i hdie
    by_cases hle : f i % r.die + 1 ≤ t
    · have hb2 := base_roll_mk r f (i + 1) hdie
      obtain ⟨l, j, hroll, hlen, hmem, hj⟩ := ih f (i + 1 + 1)
      refine ⟨DieRoll.Rerolled (f i % r.die + 1) (f (i + 1) % r.die + 1) :: l,
        j, ?_, ?_, ?_, ?_⟩
      · rw [rollDice_succ_reroll_hit r n _ _ _ _ _ t ht hle hb hb2, hroll]
      · simpa using hlen
      · intro d hd
        rcases List.mem_cons.mp hd with hd | hd
        · exact Or.inr ⟨_, _, hd, hle⟩
        · exact hmem d hd
      · simp [List.countP_cons, DieRoll.isRerolled]
        omega
    · obtain ⟨l, j, hroll, hlen, hmem, hj⟩ := ih f (i + 1)
      refine ⟨DieRoll.Kept (f i % r.die + 1) :: l, j, ?_, ?_, ?_, ?_⟩
      · rw [rollDice_succ_reroll_miss r n _ _ _ t ht hle hb, hroll]
      · simpa using hlen
      · intro d hd
        rcases List.mem_cons.mp hd with hd | hd
        · exact Or.inl ⟨_, hd, by omega⟩
        · exact hmem d hd
      · simp [List.countP_cons, DieRoll.isRerolled]
        omega

theorem sum_Icc_cast (n : Nat) :
    (∑ v in Finset.Icc 1 n, (v : ℚ)) = (n : ℚ) * ((n : ℚ) + 1) / 2 := by
  induction n with
  | zero => simp
  | succ n ih =>
    rw [Finset.sum_Icc_succ_top (by omega), ih]
    push_cast
    ring

theorem expected_roll_eq_claim (die : Nat) (reroll : Option Nat) (hdie : 1 ≤ die) :
    expected_roll die reroll = claimExpectedPerDie die reroll := by
  unfold expected_roll claimExpectedPerDie
  cases reroll with
  | some t =>
    simp only [Option.getD_some]
    congr 1
    refine Finset.sum_congr rfl ?_
    intro v _
    by_cases h : v ≤ t
    · rw [if_pos h, if_pos h]; ring
    · rw [if_neg h, if_neg h]
  | none =>
    simp only [Option.getD_none]
    have h1 : (∑ v in Finset.Icc 1 die,
        (if v ≤ die + 1 then ((die : ℚ) / 2 + 1 / 2) else (v : ℚ)))
        = (Finset.Icc 1 die).card • ((die : ℚ) / 2 + 1 / 2) := by
      rw [← Finset.sum_const]
      refine Finset.sum_congr rfl ?_
      intro v hv
      rw [if_pos (le_trans (Finset.mem_Icc.mp hv).2 (by omega))]
    have h2 : (∑ v in Finset.Icc 1 die,
        (if v ≤ 0 then ((die : ℚ) + 1) / 2 else (v : ℚ)))
        = ∑ v in Finset.Icc 1 die, (v : ℚ) := by
      refine Finset.sum_congr rfl ?_
      intro v hv
      rw [if_neg (by have := (Finset.mem_Icc.mp hv).1; omega)]
    rw [h1, h2, sum_Icc_cast, Nat.card_Icc]
    simp only [Nat.add_sub_cancel, nsmul_eq_mul]
    have hdq : (die : ℚ) ≠ 0 := Nat.cast_ne_zero.mpr (by omega)
    field_simp

/-! ### Parser and formatter lemmas -/

theorem digitChar_isDigit {n : Nat} (h : n < 10) : (digitChar n).isDigit = true := by
  interval_cases n <;> decide

theorem digitVal_digitChar {n : Nat} (h : n < 10) : digitVal (digitChar n) = n := by
  interval_cases n <;> decide

theorem natToCharsAux_adequate :
    ∀ (n fuel : Nat) (acc : List Char), n < fuel →
      natToCharsAux fuel n acc = natToChars n ++ acc := by
  intro n
  induction n using Nat.strong_induction_on with
  | _ n ih =>
    intro fuel acc hf
    obtain ⟨f, rfl⟩ : ∃ f, fuel = f + 1 := ⟨fuel - 1, by omega⟩
    by_cases h10 : n < 10
    · simp only [natToCharsAux, natToChars, if_pos h10, List.cons_append,
        List.nil_append]
    · have hd : n / 10 < n := Nat.div_lt_self (by omega) (by omega)
      simp only [natToCharsAux, natToChars, if_neg h10]
      rw [ih (n / 10) hd f _ (by omega), ih (n / 10) hd n _ (by omega)]
      simp [List.append_assoc]

theorem natToChars_eq (n : Nat) :
    natToChars n
      = if n < 10 then [digitChar n]
        else natToChars (n / 10) ++ [digitChar (n % 10)] := by
  by_cases h10 : n < 10
  · simp only [natToChars, natToCharsAux, if_pos h10]
  · simp only [natToChars, natToCharsAux, if_neg h10]
    exact natToCharsAux_adequate (n / 10) n _
      (Nat.div_lt_self (by omega) (by omega))

theorem natToChars_ne_nil (n : Nat) : natToChars n ≠ [] := by
  rw [natToChars_eq]
  split
  · simp
  · simp

theorem natToChars_isEmpty_false (n : Nat) : (natToChars n).isEmpty = false := by
  cases hn : natToChars n with
  | nil => exact absurd hn (natToChars_ne_nil n)
  | cons a l => rfl

theorem natToChars_all_digits (n : Nat) : ∀ c ∈ natToChars n, c.isDigit = true := by
  induction n using Nat.strong_induction_on with
  | _ n ih =>
    intro c hc
    rw [natToChars_eq] at hc
    by_cases h10 : n < 10
    · rw [if_pos h10, List.mem_singleton] at hc
      subst hc
      exact digitChar_isDigit h10
    · rw [if_neg h10] at hc
      rcases List.mem_append.mp hc with hc | hc
      · exact ih (n / 10) (Nat.div_lt_self (by omega) (by omega)) c hc
      · rw [List.mem_singleton] at hc
        subst hc
        exact digitChar_isDigit (Nat.mod_lt _ (by omega))

theorem digitsToNat_append_singleton (a : List Char) (c : Char) :
    digitsToNat (a ++ [c]) = digitsToNat a * 10 + digitVal c := by
  unfold digitsToNat
  rw [List.foldl_append]
  rfl

theorem digitsToNat_natToChars (n : Nat) : digitsToNat (natToChars n) = n := by
  induction n using Nat.strong_induction_on with
  | _ n ih =>
    rw [natToChars_eq]
    by_cases h10 : n < 10
    · rw [if_pos h10]
      show 0 * 10 + digitVal (digitChar n) = n
      rw [digitVal_digitChar h10]
      omega
    · rw [if_neg h10, digitsToNat_append_singleton,
        ih (n / 10) (Nat.div_lt_self (by omega) (by omega)),
        digitVal_digitChar (Nat.mod_lt _ (by omega))]
      omega

theorem spanDigits_skip (rest : List Char)
    (h : ∀ c, rest.head? = some c → c.isDigit = false) :
    spanDigits rest = ([], rest) := by
  cases rest with
  | nil => rfl
  | cons c cs =>
    have hc := h c rfl
    unfold spanDigits
    simp [hc]

theorem spanDigits_append (ds rest : List Char)
    (hds : ∀ c ∈ ds, c.isDigit = true)
    (hrest : ∀ c, rest.head? = some c → c.isDigit = false) :
    spanDigits (ds ++ rest) = (ds, rest) := by
  induction ds with
  | nil => simpa using spanDigits_skip rest hrest
  | cons c cs ih =>
    have hc : c.isDigit = true := hds c (List.mem_cons_self c cs)
    rw [List.cons_append]
    unfold spanDigits
    rw [ih (fun x hx => hds x (List.mem_cons_of_mem c hx))]
    simp [hc]

theorem spanDigits_all (ds : List Char) (hds : ∀ c ∈ ds, c.isDigit = true) :
    spanDigits ds = (ds, []) := by
  have h := spanDigits_append ds [] hds (fun c hc => by cases hc)
  simpa using h

theorem modPart_some (m : Int) :
    modPart (some m)
      = (if m = 0 then []
         else if 0 < m then '+' :: natToChars m.toNat
         else '-' :: natToChars (-m).toNat) := rfl

theorem modCapOf_some (m : Int) :
    modCapOf (some m)
      = (if m = 0 then none
         else if 0 < m then some ('+' :: natToChars m.toNat)
         else some ('-' :: natToChars (-m).toNat)) := rfl

theorem stepReroll_nil : stepReroll [] = (none, []) := rfl

theorem stepReroll_h (cs : List Char) : stepReroll ('h' :: cs) = (none, 'h' :: cs) :=
  rfl

theorem stepReroll_l (cs : List Char) : stepReroll ('l' :: cs) = (none, 'l' :: cs) :=
  rfl

theorem stepReroll_plus (cs : List Char) :
    stepReroll ('+' :: cs) = (none, '+' :: cs) := rfl

theorem stepReroll_minus (cs : List Char) :
    stepReroll ('-' :: cs) = (none, '-' :: cs) := rfl

theorem stepReroll_digits (t : Nat) (rest : List Char)
    (hrest : ∀ c, rest.head? = some c → c.isDigit = false) :
    stepReroll ('r' :: (natToChars t ++ rest)) = (some (natToChars t), rest) := by
  have h1 : stepReroll ('r' :: (natToChars t ++ rest))
      = (let p := spanDigits (natToChars t ++ rest);
         if p.1.isEmpty then (none, 'r' :: (natToChars t ++ rest))
         else (some p.1, p.2)) := rfl
  rw [h1, spanDigits_append _ _ (natToChars_all_digits t) hrest]
  simp [natToChars_isEmpty_false]

theorem stepKeep_nil : stepKeep [] = (none, none, []) := rfl

theorem stepKeep_plus (cs : List Char) :
    stepKeep ('+' :: cs) = (none, none, '+' :: cs) := rfl

theorem stepKeep_minus (cs : List Char) :
    stepKeep ('-' :: cs) = (none, none, '-' :: cs) := rfl

theorem stepKeep_digits_h (k : Nat) (rest : List Char)
    (hrest : ∀ c, rest.head? = some c → c.isDigit = false) :
    stepKeep ('h' :: (natToChars k ++ rest))
      = (some 'h', some (natToChars k), rest) := by
  have h1 : stepKeep ('h' :: (natToChars k ++ rest))
      = (let p := spanDigits (natToChars k ++ rest);
         if p.1.isEmpty then (none, none, 'h' :: (natToChars k ++ rest))
         else (some 'h', some p.1, p.2)) := rfl
  rw [h1, spanDigits_append _ _ (natToChars_all_digits k) hrest]
  simp [natToChars_isEmpty_false]

theorem stepKeep_digits_l (k : Nat) (rest : List Char)
    (hrest : ∀ c, rest.head? = some c → c.isDigit = false) :
    stepKeep ('l' :: (natToChars k ++ rest))
      = (some 'l', some (natToChars k), rest) := by
  have h1 : stepKeep ('l' :: (natToChars k ++ rest))
      = (let p := spanDigits (natToChars k ++ rest);
         if p.1.isEmpty then (none, none, 'l' :: (natToChars k ++ rest))
         else (some 'l', some p.1, p.2)) := rfl
  rw [h1, spanDigits_append _ _ (natToChars_all_digits k) hrest]
  simp [natToChars_isEmpty_false]

theorem stepModifier_nil : stepModifier [] = none := rfl

theorem stepModifier_sign_plus (m : Nat) :
    stepModifier ('+' :: natToChars m) = some ('+' :: natToChars m) := by
  have h1 : stepModifier ('+' :: natToChars m)
      = (let p := spanDigits (natToChars m);
         if p.1.isEmpty then none else some ('+' :: p.1)) := rfl
  rw [h1, spanDigits_all _ (natToChars_all_digits m)]
  simp [natToChars_isEmpty_false]

theorem stepModifier_sign_minus (m : Nat) :
    stepModifier ('-' :: natToChars m) = some ('-' :: natToChars m) := by
  have h1 : stepModifier ('-' :: natToChars m)
      = (let p := spanDigits (natToChars m);
         if p.1.isEmpty then none else some ('-' :: p.1)) := rfl
  rw [h1, spanDigits_all _ (natToChars_all_digits m)]
  simp [natToChars_isEmpty_false]

theorem modPart_head_not_digit (modifier : Option Int) :
    ∀ c, (modPart modifier).head? = some c → c.isDigit = false := by
  intro c hc
  cases modifier with
  | none => cases hc
  | some m =>
    rw [modPart_some] at hc
    by_cases h0 : m = 0
    · rw [if_pos h0] at hc; cases hc
    · rw [if_neg h0] at hc
      by_cases hpos : 0 < m
      · rw [if_pos hpos] at hc
        injection hc with hc
        subst hc
        decide
      · rw [if_neg hpos] at hc
        injection hc with hc
        subst hc
        decide

theorem keepModPart_head_not_digit (keep : Option Keep) (modifier : Option Int) :
    ∀ c, (keepPart keep ++ modPart modifier).head? = some c →
      c.isDigit = false := by
  intro c hc
  cases keep with
  | none =>
    rw [show keepPart none = [] from rfl, List.nil_append] at hc
    exact modPart_head_not_digit modifier c hc
  | some k =>
    cases k with
    | High n =>
      rw [show keepPart (some (Keep.High n)) = 'h' :: natToChars n from rfl,
        List.cons_append] at hc
      injection hc with hc
      subst hc
      decide
    | Low n =>
      rw [show keepPart (some (Keep.Low n)) = 'l' :: natToChars n from rfl,
        List.cons_append] at hc
      injection hc with hc
      subst hc
      decide

theorem tailParts_head_not_digit (reroll : Option Nat) (keep : Option Keep)
    (modifier : Option Int) :
    ∀ c, (rerollPart reroll ++ (keepPart keep ++ modPart modifier)).head?
        = some c → c.isDigit = false := by
  intro c hc
  cases reroll with
  | none =>
    rw [show rerollPart none = [] from rfl, List.nil_append] at hc
    exact keepModPart_head_not_digit keep modifier c hc
  | some t =>
    rw [show rerollPart (some t) = 'r' :: natToChars t from rfl,
      List.cons_append] at hc
    injection hc with hc
    subst hc
    decide

theorem stepReroll_tail (reroll : Option Nat) (keep : Option Keep)
    (modifier : Option Int) :
    stepReroll (rerollPart reroll ++ (keepPart keep ++ modPart modifier))
      = (reroll.map natToChars, keepPart keep ++ modPart modifier) := by
  cases reroll with
  | some t =>
    rw [show rerollPart (some t) = 'r' :: natToChars t from rfl,
      List.cons_append,
      stepReroll_digits t _ (keepModPart_head_not_digit keep modifier)]
    rfl
  | none =>
    rw [show rerollPart none = [] from rfl, List.nil_append]
    cases keep with
    | some k =>
      cases k with
      | High n =>
        rw [show keepPart (some (Keep.High n)) = 'h' :: natToChars n from rfl,
          List.cons_append, stepReroll_h]
        rfl
      | Low n =>
        rw [show keepPart (some (Keep.Low n)) = 'l' :: natToChars n from rfl,
          List.cons_append, stepReroll_l]
        rfl
    | none =>
      rw [show keepPart none = [] from rfl, List.nil_append]
      cases modifier with
      | none => rw [show modPart none = [] from rfl, stepReroll_nil]; rfl
      | some m =>
        rw [modPart_some]
        by_cases h0 : m = 0
        · rw [if_pos h0, stepReroll_nil]; rfl
        · rw [if_neg h0]
          by_cases hpos : 0 < m
          · rw [if_pos hpos, stepReroll_plus]; rfl
          · rw [if_neg hpos, stepReroll_minus]; rfl

theorem stepKeep_tail (keep : Option Keep) (modifier : Option Int) :
    stepKeep (keepPart keep ++ modPart modifier)
      = (holOf keep, keepCapOf keep, modPart modifier) := by
  cases keep with
  | some k =>
    cases k with
    | High n =>
      rw [show keepPart (some (Keep.High n)) = 'h' :: natToChars n from rfl,
        List.cons_append,
        stepKeep_digits_h n _ (modPart_head_not_digit modifier)]
      rfl
    | Low n =>
      rw [show keepPart (some (Keep.Low n)) = 'l' :: natToChars n from rfl,
        List.cons_append,
        stepKeep_digits_l n _ (modPart_head_not_digit modifier)]
      rfl
  | none =>
    rw [show keepPart none = [] from rfl, List.nil_append]
    cases modifier with
    | none => rw [show modPart none = [] from rfl, stepKeep_nil]; rfl
    | some m =>
      rw [modPart_some]
      by_cases h0 : m = 0
      · rw [if_pos h0, stepKeep_nil]; rfl
      · rw [if_neg h0]
        by_cases hpos : 0 < m
        · rw [if_pos hpos, stepKeep_plus]; rfl
        · rw [if_neg hpos, stepKeep_minus]; rfl

theorem stepModifier_modPart (modifier : Option Int) :
    stepModifier (modPart modifier) = modCapOf modifier := by
  cases modifier with
  | none => rfl
  | some m =>
    rw [modPart_some, modCapOf_some]
    by_cases h0 : m = 0
    · rw [if_pos h0, if_pos h0, stepModifier_nil]
    · rw [if_neg h0, if_neg h0]
      by_cases hpos : 0 < m
      · rw [if_pos hpos, if_pos hpos, stepModifier_sign_plus]
      · rw [if_neg hpos, if_neg hpos, stepModifier_sign_minus]

theorem spanDigits_numPart_d (num : Nat) (T : List Char) :
    spanDigits (numPart num ++ 'd' :: T) = (numPart num, 'd' :: T) := by
  apply spanDigits_append
  · intro c hc
    unfold numPart at hc
    split at hc
    · exact natToChars_all_digits num c hc
    · cases hc
  · intro c hc
    injection hc with hc
    subst hc
    decide

theorem matchAt_fmt (r : Roll) : matchAt (Roll.fmt r) = some (capFmt r) := by
  obtain ⟨num, die, reroll, modifier, keep⟩ := r
  have hT : Roll.fmt ⟨num, die, reroll, modifier, keep⟩
      = numPart num ++ 'd' :: (natToChars die
          ++ (rerollPart reroll ++ (keepPart keep ++ modPart modifier))) := by
    simp [Roll.fmt, List.append_assoc]
  rw [hT]
  simp only [matchAt, spanDigits_numPart_d]
  rw [spanDigits_append _ _ (natToChars_all_digits die)
    (tailParts_head_not_digit reroll keep modifier)]
  simp only [natToChars_isEmpty_false, Bool.false_eq_true, if_false,
    stepReroll_tail, stepKeep_tail, stepModifier_modPart]
  rfl

theorem fmt_ne_nil (r : Roll) : Roll.fmt r ≠ [] := by
  have h : 0 < (Roll.fmt r).length := by
    simp only [Roll.fmt, List.length_append, List.length_cons]
    omega
  exact List.ne_nil_of_length_pos h

theorem findMatch_of_matchAt {l : List Char} {cap : Captures}
    (hne : l ≠ []) (h : matchAt l = some cap) : findMatch l = some cap := by
  cases l with
  | nil => exact absurd rfl hne
  | cons c cs => simp only [findMatch, h]

theorem matchAt_die_some {s : List Char} {cap : Captures}
    (h : matchAt s = some cap) : ∃ ds, cap.die = some ds := by
  simp only [matchAt] at h
  split at h
  · split at h
    · cases h
    · injection h with h
      subst h
      exact ⟨_, rfl⟩
  · cases h

theorem findMatch_die_some : ∀ {l : List Char} {cap : Captures},
    findMatch l = some cap → ∃ ds, cap.die = some ds := by
  intro l
  induction l with
  | nil => intro cap h; cases h
  | cons c cs ih =>
    intro cap h
    unfold findMatch at h
    cases hm : matchAt (c :: cs) with
    | some cap2 =>
      rw [hm] at h
      injection h with h
      subst h
      exact matchAt_die_some hm
    | none =>
      rw [hm] at h
      exact ih h

theorem parse_u32_natToChars {n : Nat} (h : n < 2 ^ 32) :
    parse_u32 (natToChars n) = some n := by
  unfold parse_u32
  rw [digitsToNat_natToChars,
    if_neg (by simp [natToChars_isEmpty_false]), if_pos h]

theorem parse_usize_natToChars {n : Nat} (h : n < 2 ^ 64) :
    parse_usize (natToChars n) = some n := by
  unfold parse_usize
  rw [digitsToNat_natToChars,
    if_neg (by simp [natToChars_isEmpty_false]), if_pos h]

theorem parse_i32_plus_natToChars {n : Nat} (h : n ≤ 2 ^ 31 - 1) :
    parse_i32 ('+' :: natToChars n) = some (n : Int) := by
  have h1 : parse_i32 ('+' :: natToChars n)
      = (if (natToChars n).isEmpty then none
         else if digitsToNat (natToChars n) ≤ 2 ^ 31 - 1
           then some (digitsToNat (natToChars n) : Int) else none) := rfl
  rw [h1, digitsToNat_natToChars,
    if_neg (by simp [natToChars_isEmpty_false]), if_pos h]

theorem parse_i32_minus_natToChars {n : Nat} (h : n ≤ 2 ^ 31) :
    parse_i32 ('-' :: natToChars n) = some (-(n : Int)) := by
  have h1 : parse_i32 ('-' :: natToChars n)
      = (if (natToChars n).isEmpty then none
         else if digitsToNat (natToChars n) ≤ 2 ^ 31
           then some (-(digitsToNat (natToChars n) : Int)) else none) := rfl
  rw [h1, digitsToNat_natToChars,
    if_neg (by simp [natToChars_isEmpty_false]), if_pos h]

theorem numRes_eq (num : Nat) (h1 : 1 ≤ num) (h2 : num < 2 ^ 32) :
    ((if (numPart num).isEmpty = true then Except.ok Roll.default.num
      else match parse_u32 (numPart num) with
        | some n => Except.ok n
        | none => Except.error "Failed to parse number of dice.")
      : Except String Nat)
      = Except.ok num := by
  by_cases hl : 1 < num
  · rw [show numPart num = natToChars num from if_pos hl]
    rw [if_neg (by simp [natToChars_isEmpty_false]), parse_u32_natToChars h2]
  · have h : num = 1 := by omega
    subst h
    rfl

theorem from_str_fmt (r : Roll) (hnum1 : 1 ≤ r.num) (hnum : r.num < 2 ^ 32)
    (hdie : r.die < 2 ^ 32) (hre : ∀ t, r.reroll = some t → t < 2 ^ 32)
    (hk : ∀ n, (r.keep = some (Keep.High n) ∨ r.keep = some (Keep.Low n)) → n < 2 ^ 64)
    (hm : ∀ m, r.modifier = some m → -(2 ^ 31) ≤ m ∧ m ≤ 2 ^ 31 - 1 ∧ m ≠ 0) :
    Roll.from_str r.toNotation = .ok r := by
  obtain ⟨num, die, reroll, modifier, keep⟩ := r
  have hfm := findMatch_of_matchAt (fmt_ne_nil ⟨num, die, reroll, modifier, keep⟩)
    (matchAt_fmt ⟨num, die, reroll, modifier, keep⟩)
  show Roll.from_str ⟨Roll.fmt ⟨num, die, reroll, modifier, keep⟩⟩ = _
  simp only [Roll.from_str, hfm, capFmt]
  rw [numRes_eq num hnum1 hnum, parse_u32_natToChars hdie]
  cases reroll with
  | some t =>
    simp only [Option.map_some', parse_u32_natToChars (hre t rfl)]
    cases modifier with
    | some m =>
      obtain ⟨hmlo, hmhi, hm0⟩ := hm m rfl
      by_cases hpos : 0 < m
      · have hc : ((m.toNat : Nat) : Int) = m := Int.toNat_of_nonneg (by omega)
        simp only [modCapOf_some, if_neg hm0, if_pos hpos,
          parse_i32_plus_natToChars (show m.toNat ≤ 2 ^ 31 - 1 by omega), hc]
        cases keep with
        | some k =>
          cases k with
          | High n =>
            simp [holOf, keepCapOf, parse_usize_natToChars (hk n (Or.inl rfl))]
          | Low n =>
            simp [holOf, keepCapOf, parse_usize_natToChars (hk n (Or.inr rfl))]
        | none => simp [holOf]
      · have hc : (((-m).toNat : Nat) : Int) = -m := Int.toNat_of_nonneg (by omega)
        simp only [modCapOf_some, if_neg hm0, if_neg hpos,
          parse_i32_minus_natToChars (show (-m).toNat ≤ 2 ^ 31 by omega), hc,
          neg_neg]
        cases keep with
        | some k =>
          cases k with
          | High n =>
            simp [holOf, keepCapOf, parse_usize_natToChars (hk n (Or.inl rfl))]
          | Low n =>
            simp [holOf, keepCapOf, parse_usize_natToChars (hk n (Or.inr rfl))]
        | none => simp [holOf]
    | none =>
      simp only [modCapOf]
      cases keep with
      | some k =>
        cases k with
        | High n =>
          simp [holOf, keepCapOf, parse_usize_natToChars (hk n (Or.inl rfl))]
        | Low n =>
          simp [holOf, keepCapOf, parse_usize_natToChars (hk n (Or.inr rfl))]
      | none => simp [holOf]
  | none =>
    simp only [Option.map_none']
    cases modifier with
    | some m =>
      obtain ⟨hmlo, hmhi, hm0⟩ := hm m rfl
      by_cases hpos : 0 < m
      · have hc : ((m.toNat : Nat) : Int) = m := Int.toNat_of_nonneg (by omega)
        simp only [modCapOf_some, if_neg hm0, if_pos hpos,
          parse_i32_plus_natToChars (show m.toNat ≤ 2 ^ 31 - 1 by omega), hc]
        cases keep with
        | some k =>
          cases k with
          | High n =>
            simp [holOf, keepCapOf, parse_usize_natToChars (hk n (Or.inl rfl))]
          | Low n =>
            simp [holOf, keepCapOf, parse_usize_natToChars (hk n (Or.inr rfl))]
        | none => simp [holOf]
      · have hc : (((-m).toNat : Nat) : Int) = -m := Int.toNat_of_nonneg (by omega)
        simp only [modCapOf_some, if_neg hm0, if_neg hpos,
          parse_i32_minus_natToChars (show (-m).toNat ≤ 2 ^ 31 by omega), hc,
          neg_neg]
        cases keep with
        | some k =>
          cases k with
          | High n =>
            simp [holOf, keepCapOf, parse_usize_natToChars (hk n (Or.inl rfl))]
          | Low n =>
            simp [holOf, keepCapOf, parse_usize_natToChars (hk n (Or.inr rfl))]
        | none => simp [holOf]
    | none =>
      simp only [modCapOf]
      cases keep with
      | some k =>
        cases k with
        | High n =>
          simp [holOf, keepCapOf, parse_usize_natToChars (hk n (Or.inl rfl))]
        | Low n =>
          simp [holOf, keepCapOf, parse_usize_natToChars (hk n (Or.inr rfl))]
      | none => simp [holOf]

theorem parse_u32_some {ds : List Char} {n : Nat} (h : parse_u32 ds = some n) :
    n < 2 ^ 32 := by
  unfold parse_u32 at h
  split at h
  · cases h
  · split at h
    · injection h with h
      subst h
      assumption
    · cases h

theorem parse_usize_some {ds : List Char} {n : Nat} (h : parse_usize ds = some n) :
    n < 2 ^ 64 := by
  unfold parse_usize at h
  split at h
  · cases h
  · split at h
    · injection h with h
      subst h
      assumption
    · cases h

theorem parse_i32_some {ds : List Char} {m : Int} (h : parse_i32 ds = some m) :
    -(2 ^ 31) ≤ m ∧ m ≤ 2 ^ 31 - 1 := by
  unfold parse_i32 at h
  split at h
  · split at h
    · cases h
    · split at h
      · injection h with h
        subst h
        rename_i hb _
        constructor <;> omega
      · cases h
  · split at h
    · cases h
    · split at h
      · injection h with h
        subst h
        rename_i hb _
        constructor <;> omega
      · cases h
  · split at h
    · cases h
    · split at h
      · injection h with h
        subst h
        rename_i hb _
        constructor <;> omega
      · cases h
theorem numRes_inv {ds : List Char} {num : Nat}
    (h : ((if ds.isEmpty = true then Except.ok Roll.default.num
      else match parse_u32 ds with
        | some n => Except.ok n
        | none => Except.error "Failed to parse number of dice.")
      : Except String Nat) = Except.ok num) : num < 2 ^ 32 := by
  split at h
  · injection h with h
    subst h
    decide
  · split at h
    · injection h with h
      subst h
      exact parse_u32_some (by assumption)
    · cases h

theorem rerollRes_inv {c : Option (List Char)} {rr : Option Nat}
    (h : ((match c with
      | none => Except.ok none
      | some ds => match parse_u32 ds with
        | some n => Except.ok (some n)
        | none => Except.error "Failed to parse reroll.")
      : Except String (Option Nat)) = Except.ok rr) :
    ∀ t, rr = some t → t < 2 ^ 32 := by
  intro t ht
  split at h
  · injection h with h
    subst h
    cases ht
  · split at h
    · injection h with h
      subst h
      injection ht with ht
      subst ht
      exact parse_u32_some (by assumption)
    · cases h

theorem modRes_inv {c : Option (List Char)} {mo : Option Int}
    (h : ((match c with
      | none => Except.ok none
      | some ds => match parse_i32 ds with
        | some m => Except.ok (some m)
        | none => Except.error "Failed to parse modifier.")
      : Except String (Option Int)) = Except.ok mo) :
    ∀ m, mo = some m → -(2 ^ 31) ≤ m ∧ m ≤ 2 ^ 31 - 1 := by
  intro m hm
  split at h
  · injection h with h
    subst h
    cases hm
  · split at h
    · injection h with h
      subst h
      injection hm with hm
      subst hm
      exact parse_i32_some (by assumption)
    · cases h

theorem keepRes_inv {hol : Option Char} {kc : Option (List Char)} {kp : Option Keep}
    (h : ((match hol with
      | none => Except.ok none
      | some c =>
        if c = 'h' ∨ c = 'l' then
          match kc with
          | none => Except.ok none
          | some ds =>
            match parse_usize ds with
            | some k => Except.ok (some (if c = 'h' then Keep.High k else Keep.Low k))
            | none => Except.error "Error parsing number or dice to keep."
        else Except.error "Error parsing high or low.")
      : Except String (Option Keep)) = Except.ok kp) :
    ∀ n, (kp = some (Keep.High n) ∨ kp = some (Keep.Low n)) → n < 2 ^ 64 := by
  intro n hn
  split at h
  · injection h with h
    subst h
    rcases hn with hn | hn <;> cases hn
  · split at h
    · split at h
      · injection h with h
        subst h
        rcases hn with hn | hn <;> cases hn
      · split at h
        · injection h with h
          subst h
          have hk := parse_usize_some (by assumption)
          rcases hn with hn | hn <;>
            (injection hn with hn
             split at hn) <;>
            first
            | (injection hn with hn2
               subst hn2
               exact hk)
            | cases hn
        · cases h
    · cases h
theorem from_str_ok_bounds {s : String} {r : Roll} (h : Roll.from_str s = .ok r) :
    r.num < 2 ^ 32 ∧ r.die < 2 ^ 32 ∧ (∀ t, r.reroll = some t → t < 2 ^ 32) ∧
    (∀ n, (r.keep = some (Keep.High n) ∨ r.keep = some (Keep.Low n)) → n < 2 ^ 64) ∧
    (∀ m, r.modifier = some m → -(2 ^ 31) ≤ m ∧ m ≤ 2 ^ 31 - 1) := by
  simp only [Roll.from_str] at h
  split at h
  · cases h
  · split at h
    · cases h
    · split at h
      · cases h
      · split at h
        · cases h
        · split at h
          · cases h
          · split at h
            · cases h
            · split at h
              · cases h
              · injection h with h
                subst h
                refine ⟨numRes_inv (by assumption), parse_u32_some (by assumption),
                  rerollRes_inv (by assumption), keepRes_inv (by assumption),
                  modRes_inv (by assumption)⟩

theorem numRes_ne_nodie {ds : List Char} :
    ((if ds.isEmpty = true then Except.ok Roll.default.num
      else match parse_u32 ds with
        | some n => Except.ok n
        | none => Except.error "Failed to parse number of dice.")
      : Except String Nat) ≠ .error "No die specified." := by
  intro h
  split at h
  · cases h
  · split at h
    · cases h
    · injection h with h
      exact absurd h (by decide)

theorem rerollRes_ne_nodie {c : Option (List Char)} :
    ((match c with
      | none => Except.ok none
      | some ds => match parse_u32 ds with
        | some n => Except.ok (some n)
        | none => Except.error "Failed to parse reroll.")
      : Except String (Option Nat)) ≠ .error "No die specified." := by
  intro h
  split at h
  · cases h
  · split at h
    · cases h
    · injection h with h
      exact absurd h (by decide)

theorem modRes_ne_nodie {c : Option (List Char)} :
    ((match c with
      | none => Except.ok none
      | some ds => match parse_i32 ds with
        | some m => Except.ok (some m)
        | none => Except.error "Failed to parse modifier.")
      : Except String (Option Int)) ≠ .error "No die specified." := by
  intro h
  split at h
  · cases h
  · split at h
    · cases h
    · injection h with h
      exact absurd h (by decide)

theorem keepRes_ne_nodie {hol : Option Char} {kc : Option (List Char)} :
    ((match hol with
      | none => Except.ok none
      | some c =>
        if c = 'h' ∨ c = 'l' then
          match kc with
          | none => Except.ok none
          | some ds =>
            match parse_usize ds with
            | some k => Except.ok (some (if c = 'h' then Keep.High k else Keep.Low k))
            | none => Except.error "Error parsing number or dice to keep."
        else Except.error "Error parsing high or low.")
      : Except String (Option Keep)) ≠ .error "No die specified." := by
  intro h
  split at h
  · cases h
  · split at h
    · split at h
      · cases h
      · split at h
        · cases h
        · injection h with h
          exact absurd h (by decide)
    · injection h with h
      exact absurd h (by decide)

/-! ### The claims -/

/-- **C1**: `total()` equals, for `High n`, the sum of the last `n` entries
of the rolls sorted ascending by effective value, for `Low n` the sum of
the first `n` entries, with no keep selector the sum of all entries, plus
the modifier in each case; the stored collection is such an
ascending-by-value arrangement of the rolls; and on the instance with
effective values `[2, 4, 5, 6]`, keep `High 3` and modifier `0` the total
is `15`. -/
theorem c1_total_keep_semantics :
    (∀ (rolls : List DieRoll) (modifier : Int) (sorted : List DieRoll),
      sorted.Perm rolls → sorted.Sorted valueLE →
      (∀ n, n ≤ rolls.length →
        (Outcome.new rolls (some (Keep.High n)) modifier).total
          = some ((rollsSum (sorted.drop (sorted.length - n)) : Int) + modifier)) ∧
      (∀ n, n ≤ rolls.length →
        (Outcome.new rolls (some (Keep.Low n)) modifier).total
          = some ((rollsSum (sorted.take n) : Int) + modifier)) ∧
      (Outcome.new rolls none modifier).total
        = some ((rollsSum rolls : Int) + modifier)) ∧
    (Outcome.new [DieRoll.Kept 2, DieRoll.Kept 4, DieRoll.Kept 5, DieRoll.Kept 6]
        (some (Keep.High 3)) 0).total = some 15 := by
  constructor
  · intro rolls modifier sorted hperm hsort
    have hmap := insertionSort_map_value rolls sorted hperm hsort
    have hlen : (List.insertionSort valueLE rolls).length = rolls.length :=
      (List.perm_insertionSort valueLE rolls).length_eq
    have hslen : sorted.length = rolls.length := hperm.length_eq
    refine ⟨?_, ?_, ?_⟩
    · intro n hn
      simp only [Outcome.new, Outcome.total]
      rw [if_pos (by rw [hlen]; exact hn)]
      have hsum : rollsSum ((List.insertionSort valueLE rolls).drop
            ((List.insertionSort valueLE rolls).length - n))
          = rollsSum (sorted.drop (sorted.length - n)) := by
        unfold rollsSum
        rw [List.map_drop, List.map_drop, hmap, hlen, hslen]
      rw [hsum]
    · intro n hn
      simp only [Outcome.new, Outcome.total]
      rw [if_pos (by rw [hlen]; exact hn)]
      have hsum : rollsSum ((List.insertionSort valueLE rolls).take n)
          = rollsSum (sorted.take n) := by
        unfold rollsSum
        rw [List.map_take, List.map_take, hmap]
      rw [hsum]
    · simp only [Outcome.new, Outcome.total]
      have hsum : rollsSum (List.insertionSort valueLE rolls) = rollsSum rolls := by
        unfold rollsSum
        exact ((List.perm_insertionSort valueLE rolls).map DieRoll.value).sum_eq
      rw [hsum]
  · decide

theorem c1_witness :
    (Outcome.new [DieRoll.Kept 2, DieRoll.Kept 4, DieRoll.Kept 5, DieRoll.Kept 6]
        (some (Keep.Low 2)) 1).total
      = some ((rollsSum ([DieRoll.Kept 2, DieRoll.Kept 4, DieRoll.Kept 5,
          DieRoll.Kept 6].take 2) : Int) + 1) :=
  ((c1_total_keep_semantics.1
    [DieRoll.Kept 2, DieRoll.Kept 4, DieRoll.Kept 5, DieRoll.Kept 6] 1
    [DieRoll.Kept 2, DieRoll.Kept 4, DieRoll.Kept 5, DieRoll.Kept 6]
    (by decide) (by decide)).2.1) 2 (by decide)

/-- **C2**: every individual die value appearing in an evaluated `Outcome`
— in a `Kept` entry, or as the original or final value of a `Rerolled`
entry — lies in `1..=die`. -/
theorem c2_values_in_range (r : Roll) (s : RngState) (o : Outcome)
    (h : r.roll s = some o) :
    ∀ d ∈ o.rolls,
      match d with
      | DieRoll.Kept v => 1 ≤ v ∧ v ≤ r.die
      | DieRoll.Rerolled ov fv =>
          (1 ≤ ov ∧ ov ≤ r.die) ∧ (1 ≤ fv ∧ fv ≤ r.die) := by
  intro d hd
  unfold Roll.roll at h
  cases hroll : r.rollDice r.num s with
  | none => rw [hroll] at h; cases h
  | some p =>
    obtain ⟨l, s2⟩ := p
    rw [hroll] at h
    simp only [Option.map_some'] at h
    injection h with h2
    subst h2
    have hd2 : d ∈ l :=
      (List.perm_insertionSort valueLE l).mem_iff.mp hd
    exact rollDice_bound r r.num s l s2 hroll d hd2

theorem c2_witness : (1 ≤ 1 ∧ 1 ≤ 6) ∧ (1 ≤ 6 ∧ 6 ≤ 6) :=
  c2_values_in_range (Roll.new 2 6 (some 2) none none) (streamOf [0, 5, 3])
    { rolls := [DieRoll.Kept 4, DieRoll.Rerolled 1 6], modifier := 0, keep := none }
    (by decide) (DieRoll.Rerolled 1 6) (by decide)

/-- **C8**: resolving `"adv"` yields exactly one `2d20` keep-high-1,
`"dis"` exactly one `2d20` keep-low-1, and `"stats"` exactly six copies of
`4d6` keep-high-3, in the macro's stored order. -/
theorem c8_builtin_macros :
    parse_rolls MACROS ["adv"]
      = .ok [Roll.new 2 20 none (some (Keep.High 1)) none] ∧
    parse_rolls MACROS ["dis"]
      = .ok [Roll.new 2 20 none (some (Keep.Low 1)) none] ∧
    parse_rolls MACROS ["stats"]
      = .ok [Roll.new 4 6 none (some (Keep.High 3)) none,
             Roll.new 4 6 none (some (Keep.High 3)) none,
             Roll.new 4 6 none (some (Keep.High 3)) none,
             Roll.new 4 6 none (some (Keep.High 3)) none,
             Roll.new 4 6 none (some (Keep.High 3)) none,
             Roll.new 4 6 none (some (Keep.High 3)) none] :=
  ⟨rfl, rfl, rfl⟩

/-- **C9**: `total()` is in bounds whenever the keep count is at most the
pool size, and on a concrete outcome whose keep count exceeds the pool
size it panics (modelled `none`) for both `High` and `Low`, rather than
keeping all dice or returning an error value. -/
theorem c9_total_slice_bounds :
    (∀ (o : Outcome) (n : Nat),
      (o.keep = some (Keep.High n) → n ≤ o.rolls.length →
        (Outcome.total o).isSome = true) ∧
      (o.keep = some (Keep.Low n) → n ≤ o.rolls.length →
        (Outcome.total o).isSome = true)) ∧
    (Outcome.new [DieRoll.Kept 1] (some (Keep.High 2)) 0).total = none ∧
    (Outcome.new [DieRoll.Kept 1] (some (Keep.Low 2)) 0).total = none := by
  refine ⟨?_, by decide, by decide⟩
  intro o n
  constructor
  · intro hk hn
    simp [Outcome.total, hk, hn]
  · intro hk hn
    simp [Outcome.total, hk, hn]

theorem c9_witness :
    (Outcome.total
      { rolls := [DieRoll.Kept 3], modifier := 0,
        keep := some (Keep.High 1) }).isSome = true :=
  (c9_total_slice_bounds.1
    { rolls := [DieRoll.Kept 3], modifier := 0, keep := some (Keep.High 1) } 1).1
    rfl (by decide)

/-- **C10**: the token `"d0"` parses successfully to one die of size `0`,
but evaluating any roll with `die = 0` and at least one die panics
(modelled `none`) when drawing from the empty range, while `die ≥ 1` makes
`roll()` panic-free. -/
theorem c10_d0_parses_but_roll_panics :
    (Roll.from_str "d0" = .ok (Roll.new 1 0 none none none)) ∧
    (∀ (r : Roll) (s : RngState), r.die = 0 → 1 ≤ r.num → r.roll s = none) ∧
    (∀ (r : Roll) (s : RngState), 1 ≤ r.die → (r.roll s).isSome = true) := by
  refine ⟨by decide, ?_, ?_⟩
  · intro r s hdie hnum
    obtain ⟨k, hk⟩ : ∃ k, r.num = k + 1 := ⟨r.num - 1, by omega⟩
    have hb : r.base_roll s = none := by
      simp [Roll.base_roll, RngState.next, genRange, hdie]
    unfold Roll.roll
    rw [hk, rollDice_succ_base_none r k s hb]
    rfl
  · intro r s hdie
    have h := rollDice_isSome_of_die_pos r hdie r.num s
    unfold Roll.roll
    cases hroll : r.rollDice r.num s with
    | none => rw [hroll] at h; cases h
    | some p => rfl

theorem c10_witness :
    (Roll.new 1 0 none none none).roll (streamOf []) = none ∧
    ((Roll.new 1 6 none none none).roll (streamOf [])).isSome = true :=
  ⟨c10_d0_parses_but_roll_panics.2.1 (Roll.new 1 0 none none none)
      (streamOf []) rfl (by decide),
   c10_d0_parses_but_roll_panics.2.2 (Roll.new 1 6 none none none)
      (streamOf []) (by decide)⟩

/-- **C3**: with a reroll threshold `t` set and drawable dice, evaluation
draws one base value per die; an entry is `Kept b` exactly when the base
value exceeded the threshold and `Rerolled ov fv` exactly when the original
was at most the threshold; the total number of raw draws consumed is the
dice count plus exactly one per rerolled entry (so rerolling never
cascades), and the effective value of a `Rerolled` entry is the
replacement, never the original. -/
theorem c3_reroll_semantics (r : Roll) (t : Nat) (ht : r.reroll = some t)
    (hdie : 1 ≤ r.die) :
    (∀ (n : Nat) (s : RngState), ∃ (l : List DieRoll) (s2 : RngState),
      r.rollDice n s = some (l, s2) ∧ l.length = n ∧
      (∀ d ∈ l, (∃ b, d = DieRoll.Kept b ∧ t < b) ∨
                (∃ ov fv, d = DieRoll.Rerolled ov fv ∧ ov ≤ t)) ∧
      s2.stream = s.stream ∧
      s2.idx = s.idx + n + l.countP DieRoll.isRerolled) ∧
    (∀ ov fv, (DieRoll.Rerolled ov fv).value = fv) := by
  constructor
  · intro n s
    obtain ⟨f, i⟩ := s
    obtain ⟨l, j, hroll, hlen, hmem, hj⟩ := rollDice_reroll_spec r t ht hdie n f i
    exact ⟨l, { stream := f, idx := j }, hroll, hlen, hmem, rfl, hj⟩
  · intro ov fv
    rfl

theorem c3_witness : (DieRoll.Rerolled 1 6).value = 6 :=
  (c3_reroll_semantics (Roll.new 2 6 (some 2) none none) 2 rfl (by decide)).2 1 6

/-- **C6**: `expected_total` equals, for every roll with at least one face,
the specification's formula — the average over the faces `1..=die` of
`(die + 1) / 2` for a face at most the reroll threshold and of the face
itself otherwise, times the keep count (or `num` without a keep selector),
plus the modifier — and on the instances: `d6` gives `3.5` and `d6r2`
gives `25/6 = 4.1666...`. -/
theorem c6_expected_value :
    (∀ r : Roll, 1 ≤ r.die → r.expected_total = claimExpectedTotal r) ∧
    (Roll.new 1 6 none none none).expected_total = 7 / 2 ∧
    (Roll.new 1 6 (some 2) none none).expected_total = 25 / 6 := by
  have hset : Finset.Icc 1 6 = ({1, 2, 3, 4, 5, 6} : Finset ℕ) := by decide
  refine ⟨?_, ?_, ?_⟩
  · intro r hdie
    unfold Roll.expected_total claimExpectedTotal
    rw [expected_roll_eq_claim r.die r.reroll hdie]
  · simp only [Roll.expected_total, expected_roll, Roll.new, Option.getD_none, hset]
    rw [Finset.sum_insert (by decide), Finset.sum_insert (by decide),
      Finset.sum_insert (by decide), Finset.sum_insert (by decide),
      Finset.sum_insert (by decide), Finset.sum_singleton]
    norm_num
  · simp only [Roll.expected_total, expected_roll, Roll.new, Option.getD_some, hset]
    rw [Finset.sum_insert (by decide), Finset.sum_insert (by decide),
      Finset.sum_insert (by decide), Finset.sum_insert (by decide),
      Finset.sum_insert (by decide), Finset.sum_singleton]
    norm_num

theorem c6_witness :
    (Roll.new 1 6 none none none).expected_total
      = claimExpectedTotal (Roll.new 1 6 none none none) :=
  c6_expected_value.1 (Roll.new 1 6 none none none) (by decide)

/-- **C4** counterexample: the token `"xd6"` does not match the grammar
over its entire length, yet parsing succeeds (as `d6`) instead of
returning an error. -/
theorem c4_counterexample :
    Roll.from_str "xd6" = .ok (Roll.new 1 6 none none none) := by decide

/-- **C4** (amended): parsing is not anchored: the pattern is matched
anywhere in the token, so a token with leading or trailing characters
around a grammar-matching substring parses successfully from the leftmost
matching substring (`"xd6"` parses as `d6`); a token in which no substring
matches the pattern is rejected with the generic error. -/
theorem c4_unanchored_match :
    Roll.from_str "xd6" = .ok (Roll.new 1 6 none none none) ∧
    (∀ s : String, findMatch s.data = none →
      Roll.from_str s = .error "Something went wrong.") := by
  refine ⟨by decide, ?_⟩
  intro s hs
  simp only [Roll.from_str, hs]

theorem c4_witness : Roll.from_str "x" = .error "Something went wrong." :=
  c4_unanchored_match.2 "x" (by decide)

/-- **C5** counterexample: the token `"d"` fails with the generic
`"Something went wrong."` error, not with the `"No die specified."`
(`MissingDie`) error. -/
theorem c5_counterexample :
    Roll.from_str "d" = .error "Something went wrong." ∧
    Roll.from_str "d" ≠ .error "No die specified." := by
  exact ⟨by decide, by decide⟩

/-- **C5** (amended): `"d"` is rejected by the pattern itself, because the
die digits are a mandatory part of the pattern, so parsing fails with the
generic `"Something went wrong."` error; the `"No die specified."` branch
is unreachable on every input, since a successful match always carries a
die capture. -/
theorem c5_missing_die_unreachable :
    Roll.from_str "d" = .error "Something went wrong." ∧
    ∀ s : String, Roll.from_str s ≠ .error "No die specified." := by
  refine ⟨by decide, ?_⟩
  intro s
  cases hm : findMatch s.data with
  | none =>
    simp only [Roll.from_str, hm]
    decide
  | some cap =>
    obtain ⟨ds, hds⟩ := findMatch_die_some hm
    simp only [Roll.from_str, hm, hds]
    intro hc
    split at hc
    · rename_i heq
      injection hc with hmsg
      subst hmsg
      exact numRes_ne_nodie heq
    · split at hc
      · injection hc with hmsg
        exact absurd hmsg (by decide)
      · split at hc
        · rename_i heq
          injection hc with hmsg
          subst hmsg
          exact rerollRes_ne_nodie heq
        · split at hc
          · rename_i heq
            injection hc with hmsg
            subst hmsg
            exact modRes_ne_nodie heq
          · split at hc
            · rename_i heq
              injection hc with hmsg
              subst hmsg
              exact keepRes_ne_nodie heq
            · cases hc

/-- **C7** (amended): a roll obtained from a successful parse with at
least one die and no explicit zero modifier round-trips: formatting it to
notation and re-parsing yields an equal roll in all fields, defaults
normalizing (an omitted count and an explicit count of 1 parse to the
same roll). -/
theorem c7_roundtrip (s : String) (r : Roll) (h : Roll.from_str s = .ok r)
    (hnum : 1 ≤ r.num) (hmod : r.modifier ≠ some 0) :
    Roll.from_str r.toNotation = .ok r := by
  obtain ⟨h1, h2, h3, h4, h5⟩ := from_str_ok_bounds h
  refine from_str_fmt r hnum h1 h2 h3 h4 ?_
  intro m hm
  refine ⟨(h5 m hm).1, (h5 m hm).2, ?_⟩
  intro h0
  exact hmod (by rw [hm, h0])

theorem c7_witness :
    Roll.from_str (Roll.new 2 20 (some 3) (some (Keep.High 1)) (some (-2))).toNotation
      = .ok (Roll.new 2 20 (some 3) (some (Keep.High 1)) (some (-2))) :=
  c7_roundtrip "2d20r3h1-2" (Roll.new 2 20 (some 3) (some (Keep.High 1)) (some (-2)))
    (by decide) (by decide) (by decide)

/-- **C7** counterexample: `"0d6"` parses successfully to a roll with
`num = 0`, which formats back to `"d6"` and re-parses with `num = 1`: the
round-tripped roll is not equal to the original in all fields. -/
theorem c7_counterexample :
    Roll.from_str "0d6" = .ok (Roll.new 0 6 none none none) ∧
    (Roll.new 0 6 none none none).toNotation = "d6" ∧
    Roll.from_str "d6" = .ok (Roll.new 1 6 none none none) ∧
    Roll.new 0 6 none none none ≠ Roll.new 1 6 none none none := by
  exact ⟨by decide, by decide, by decide, by decide⟩

end RollRs
